import Mathlib

/-!
Verification of the hybrid relevance-ranking and embedding-cache subsystem of
the Aurora QA service (`app/services/hybrid_search_service.py`).

Modelling conventions:
* Python floats are modelled as exact rationals (`ℚ`); the arithmetic in the
  scorer is spec-level (weighted averages, divisions by small constants).
* `numpy` arrays of scores are `List ℚ`; the embedding matrix is
  `List (List ℚ)`.
* Python `set` is `Finset String`.
* `re.findall(r'\b\w+\b', text)` is `findWords`: the maximal runs of word
  characters (ASCII alphanumerics and underscore) in the text.
* `np.argsort` is modelled as the stable ascending argsort (ties resolved by
  index), matching numpy's behaviour on small arrays and its `stable` kind.
* The md5 fingerprint `_generate_message_hash` is an abstract parameter
  `hash : String → String`; claims about invalidation assume it is injective
  (collision freedom of the digest).
* Disk I/O of the cache is modelled by explicit outcome values (`DiskRead`,
  a `write` function returning `Except`), so that the `try/except` blocks of
  `_load_embedding_cache` / `_save_embedding_cache` become total functions
  that record the swallowed error in a log value.
-/

/-- Python's `str.lower` restricted to the ASCII range, applied characterwise
(`Char.toLower` only touches basic latin letters, as CPython does for ASCII
text). -/
def pyLower (s : String) : String :=
  String.mk (s.toList.map Char.toLower)

/-- A word character in the sense of the regex `\w`: ASCII alphanumeric or
underscore. -/
def isWordChar (c : Char) : Bool :=
  c.isAlphanum || c == '_'

/-- Accumulator-based splitter: returns the maximal runs of word characters.
`acc` holds the current run, reversed. -/
def splitWordsAux : List Char → List Char → List String
  | [], acc => if acc.isEmpty then [] else [String.mk acc.reverse]
  | c :: cs, acc =>
    if isWordChar c then
      splitWordsAux cs (c :: acc)
    else if acc.isEmpty then
      splitWordsAux cs []
    else
      String.mk acc.reverse :: splitWordsAux cs []

/-- Model of `re.findall(r'\b\w+\b', text)`: the maximal runs of word characters of
`text`, in order. -/
def findWords (text : String) : List String :=
  splitWordsAux text.toList []

/-- The fixed stop-word list of `_extract_keywords`
(hybrid_search_service.py, lines 194-200). -/
def stop_words : List String :=
  ["the", "a", "an", "and", "or", "but", "in", "on", "at", "to", "for", "of",
   "with", "by", "is", "are", "was", "were", "be", "been", "have", "has",
   "had", "do", "does", "did", "will", "would", "could", "should", "may",
   "might", "can", "i", "you", "he", "she", "it", "we", "they", "this",
   "that", "these", "those", "what", "where", "when", "why", "how", "who",
   "which"]

/-- Model of `_extract_keywords` (lines 173-207): empty text gives the empty set;
otherwise lowercase the text unless case-sensitive, split into `\w+` runs,
and keep the words of length > 2 whose lowercase form is not a stop word. -/
def extract_keywords (case_sensitive : Bool) (text : String) : Finset String :=
  if text = "" then ∅
  else
    let t := if case_sensitive then text else pyLower text
    ((findWords t).filter
      (fun w => decide (2 < w.length ∧ pyLower w ∉ stop_words))).toFinset

/-- Occurrences of `keyword` in `text` as counted by
`len(re.findall(r'\b' + re.escape(keyword) + r'\b', text))` (line 249): for a
keyword made of word characters only, each regex match is exactly a maximal
word-character run of `text` equal to the keyword. -/
def count_occurrences (keyword : String) (text : String) : ℕ :=
  ((findWords text).filter (fun w => w == keyword)).length

/-- Model of `_compute_keyword_score` (lines 209-257). -/
def compute_keyword_score (case_sensitive : Bool) (query_keywords : Finset String)
    (message_text : String) : ℚ :=
  if query_keywords = ∅ then 0
  else
    let message_keywords := extract_keywords case_sensitive message_text
    if message_keywords = ∅ then 0
    else
      let matched := query_keywords ∩ message_keywords
      if matched = ∅ then 0
      else
        let query_coverage : ℚ := (matched.card : ℚ) / (query_keywords.card : ℚ)
        let message_text_l := if case_sensitive then message_text else pyLower message_text
        let frequency_sum : ℚ := ∑ k ∈ matched,
          ((min (count_occurrences (if case_sensitive then k else pyLower k) message_text_l) 3 : ℕ) : ℚ) / 3
        let frequency_score : ℚ := frequency_sum / (matched.card : ℚ)
        min (query_coverage * 0.6 + frequency_score * 0.4) 1

/-- The configuration fields consumed by `HybridSearchService.__init__`
(lines 28-45), read from `app/config.py`. -/
structure HybridConfig where
  embedding_weight : ℚ
  keyword_weight : ℚ
  min_keyword_matches : ℕ
  case_sensitive : Bool
  top_k : ℕ

/-- The defaults from `app/config.py`: weights 0.7 / 0.3,
`min_keyword_matches` 1, case-insensitive, `top_k_messages` 5. -/
def default_settings : HybridConfig :=
  ⟨0.7, 0.3, 1, false, 5⟩

/-- Model of `_compute_hybrid_scores` (lines 259-330): per-record keyword scores, the
normalisation of embedding similarities from [-1,1] to [0,1], the weighted
fusion, and the minimum-keyword-match filter with its pure-embedding
fallback. -/
def compute_hybrid_scores (cfg : HybridConfig) (query : String)
    (message_texts : List String) (embedding_scores : List ℚ) : List ℚ :=
  let query_keywords := extract_keywords cfg.case_sensitive query
  let keyword_scores := message_texts.map
    (compute_keyword_score cfg.case_sensitive query_keywords)
  let embedding_scores_norm := embedding_scores.map (fun s => (s + 1) / 2)
  let hybrid_scores := List.zipWith
    (fun e k => cfg.embedding_weight * e + cfg.keyword_weight * k)
    embedding_scores_norm keyword_scores
  if 0 < cfg.min_keyword_matches ∧ query_keywords ≠ ∅ then
    let threshold : ℚ := (cfg.min_keyword_matches : ℚ) / (query_keywords.card : ℚ)
    if ∃ k ∈ keyword_scores, threshold ≤ k then
      List.zipWith (fun k h => if threshold ≤ k then h else h * 0.1)
        keyword_scores hybrid_scores
    else
      embedding_scores_norm
  else
    hybrid_scores

/-- The comparison realised by the stable ascending `np.argsort` on a score
vector: by score, ties by index. -/
def argsortRel (scores : List ℚ) (i j : ℕ) : Prop :=
  scores.getD i 0 < scores.getD j 0 ∨
    (scores.getD i 0 = scores.getD j 0 ∧ i ≤ j)

instance (scores : List ℚ) (i j : ℕ) : Decidable (argsortRel scores i j) :=
  inferInstanceAs (Decidable (_ ∨ _))

instance (scores : List ℚ) : IsTotal ℕ (argsortRel scores) where
  total i j := by
    rcases lt_trichotomy (scores.getD i 0) (scores.getD j 0) with h | h | h
    · exact Or.inl (Or.inl h)
    · rcases Nat.le_total i j with hij | hij
      · exact Or.inl (Or.inr ⟨h, hij⟩)
      · exact Or.inr (Or.inr ⟨h.symm, hij⟩)
    · exact Or.inr (Or.inl h)

instance (scores : List ℚ) : IsTrans ℕ (argsortRel scores) where
  trans i j k hij hjk := by
    rcases hij with h₁ | ⟨e₁, l₁⟩
    · rcases hjk with h₂ | ⟨e₂, l₂⟩
      · exact Or.inl (h₁.trans h₂)
      · exact Or.inl (e₂ ▸ h₁)
    · rcases hjk with h₂ | ⟨e₂, l₂⟩
      · exact Or.inl (e₁ ▸ h₂)
      · exact Or.inr ⟨e₁.trans e₂, l₁.trans l₂⟩

/-- Model of `np.argsort(scores)` (ascending, stable): the indices `0 .. N-1` sorted
by score, ties by index. -/
def argsort (scores : List ℚ) : List ℕ :=
  List.insertionSort (argsortRel scores) (List.range scores.length)

/-- Model of `np.argsort(hybrid_scores)[::-1][:top_k]` (line 380). -/
def top_indices (top_k : ℕ) (scores : List ℚ) : List ℕ :=
  (argsort scores).reverse.take top_k

/-- Model of `retrieve_relevant_messages` (lines 332-405), with the embedding-side
collaborators abstracted: `embedding_scores` stands for the cosine
similarities `compute_similarity(query_embedding, message_embeddings)`
computed before the hybrid-scoring step.  Selects the top-k indices and
returns `(messages[idx], hybrid_scores[idx])` pairs. -/
def retrieve_relevant_messages {α : Type} (cfg : HybridConfig) (question : String)
    (messages : List α) (message_texts : List String)
    (embedding_scores : List ℚ) : List (α × ℚ) :=
  let hybrid_scores := compute_hybrid_scores cfg question message_texts embedding_scores
  let top := top_indices cfg.top_k hybrid_scores
  top.filterMap (fun idx => (messages[idx]?).map (fun m => (m, hybrid_scores.getD idx 0)))

/-- The in-memory cache fields of `HybridSearchService`
(`_cached_embeddings`, `_cached_message_hashes`, `_cache_timestamp`,
lines 42-44).  Timestamps are rationals (seconds since some epoch). -/
structure CacheState where
  cached_embeddings : Option (List (List ℚ))
  cached_message_hashes : Option (List String)
  cache_timestamp : Option ℚ
deriving DecidableEq

/-- The TTL `timedelta(hours=24)` from the default
`embedding_cache_ttl_hours = 24` (line 45, config.py line 73), in seconds. -/
def cache_ttl_default : ℚ := 24 * 3600

/-- What reading the on-disk cache slot can yield: no file
(`EMBEDDING_CACHE_FILE.exists()` false), a read that raises (unreadable or
corrupt pickle: `open`/`pickle.load`/field access throws), or a well-formed
entry. -/
inductive DiskRead where
  | absent : DiskRead
  | failure : DiskRead
  | entry (timestamp : ℚ) (embeddings : List (List ℚ)) (hashes : List String) : DiskRead

/-- The body of the `try:` block of `_load_embedding_cache` (lines 64-82):
may raise (modelled by `Except.error`); on a fresh entry installs it, on an
expired one leaves the fields unset. -/
def load_embedding_cache_body (ttl now : ℚ) (disk : DiskRead) :
    Except String CacheState :=
  match disk with
  | .absent => .ok ⟨none, none, none⟩
  | .failure => .error "failed to read cache file"
  | .entry ts emb hs =>
    if now - ts < ttl then .ok ⟨some emb, some hs, some ts⟩
    else .ok ⟨none, none, none⟩

/-- Model of `_load_embedding_cache` (lines 62-86): the `except` clause catches every
exception, logs it, and resets the cache fields to `None`. -/
def load_embedding_cache (ttl now : ℚ) (disk : DiskRead) : CacheState :=
  match load_embedding_cache_body ttl now disk with
  | .ok s => s
  | .error _ => ⟨none, none, none⟩

/-- Model of `_save_embedding_cache` (lines 88-111): attempts the disk write; a raised
exception is caught and only logged (returned here as the log line). -/
def save_embedding_cache
    (write : List (List ℚ) → List String → Except String Unit)
    (embeddings : List (List ℚ)) (message_hashes : List String) :
    Option String :=
  match write embeddings message_hashes with
  | .ok _ => none
  | .error e => some e

/-- The `cache_valid` condition of `_get_or_compute_embeddings`
(lines 122-127): both fields present, lengths equal, and the hash sequences
element-wise equal — all captured by `cached_message_hashes = some current`.
Note: no TTL condition appears here. -/
def cache_valid (s : CacheState) (current_hashes : List String) : Prop :=
  s.cached_embeddings.isSome = true ∧ s.cached_message_hashes = some current_hashes

instance (s : CacheState) (current_hashes : List String) :
    Decidable (cache_valid s current_hashes) :=
  inferInstanceAs (Decidable (_ ∧ _))

/-- The outcome of one `_get_or_compute_embeddings` call: the returned
matrix, the updated in-memory cache fields, whether
`embedding_service.model.encode` was invoked, and the warning logged by a
failed disk write (if any). -/
structure GocResult where
  embeddings : List (List ℚ)
  state : CacheState
  provider_called : Bool
  save_log : Option String
deriving DecidableEq

/-- Model of `_get_or_compute_embeddings` (lines 113-171).  `hash` abstracts
`_generate_message_hash` (md5 hex digest, line 58-60), `encode` the
provider's batch encode, `now` the value of `datetime.now()`, `write` the
disk write attempted by `_save_embedding_cache`. -/
def get_or_compute_embeddings (hash : String → String)
    (encode : List String → List (List ℚ)) (now : ℚ)
    (write : List (List ℚ) → List String → Except String Unit)
    (s : CacheState) (message_texts : List String) : GocResult :=
  let current_hashes := message_texts.map hash
  if cache_valid s current_hashes then
    ⟨s.cached_embeddings.getD [], s, false, none⟩
  else
    let embeddings := encode message_texts
    let s' : CacheState := ⟨some embeddings, some current_hashes, some now⟩
    ⟨embeddings, s', true, save_embedding_cache write embeddings current_hashes⟩

/-- Casting a scalar value below the surrogate range through `Char.ofNat` round-trips. -/
theorem char_toNat_ofNat_of_lt {n : ℕ} (h : n < 55296) : (Char.ofNat n).toNat = n := by
  rw [Char.ofNat, dif_pos (Or.inl h)]
  rfl

/-- ASCII lowering is idempotent. -/
theorem toLower_toLower (c : Char) : c.toLower.toLower = c.toLower := by
  unfold Char.toLower
  by_cases h : c.toNat ≥ 65 ∧ c.toNat ≤ 90
  · rw [if_pos h]
    have h2 : (Char.ofNat (c.toNat + 32)).toNat = c.toNat + 32 :=
      char_toNat_ofNat_of_lt (by omega)
    rw [if_neg (by rw [h2]; omega)]
  · rw [if_neg h, if_neg h]

/-- Every character of a lowered string is fixed by lowering. -/
theorem toLower_eq_self_of_mem_pyLower {c : Char} {s : String}
    (h : c ∈ (pyLower s).toList) : c.toLower = c := by
  have h' : c ∈ s.toList.map Char.toLower := h
  obtain ⟨d, hd, rfl⟩ := List.mem_map.mp h'
  exact toLower_toLower d

/-- Characters of the words produced by `splitWordsAux` come from the
accumulator or from the remaining input. -/
theorem mem_splitWordsAux_chars :
    ∀ (l acc : List Char) (w : String), w ∈ splitWordsAux l acc →
      ∀ c ∈ w.toList, c ∈ acc ∨ c ∈ l := by
  intro l
  induction l with
  | nil =>
    intro acc w hw c hc
    unfold splitWordsAux at hw
    by_cases ha : acc.isEmpty
    · simp [ha] at hw
    · rw [if_neg ha] at hw
      rw [List.mem_singleton] at hw
      subst hw
      left
      exact List.mem_reverse.mp hc
  | cons x xs ih =>
    intro acc w hw c hc
    unfold splitWordsAux at hw
    by_cases hx : isWordChar x
    · rw [if_pos hx] at hw
      rcases ih (x :: acc) w hw c hc with h | h
      · rcases List.mem_cons.mp h with h | h
        · right; exact h ▸ List.mem_cons_self x xs
        · left; exact h
      · right; exact List.mem_cons_of_mem x h
    · rw [if_neg hx] at hw
      by_cases ha : acc.isEmpty
      · rw [if_pos ha] at hw
        rcases ih [] w hw c hc with h | h
        · exact absurd h (List.not_mem_nil c)
        · right; exact List.mem_cons_of_mem x h
      · rw [if_neg ha] at hw
        rcases List.mem_cons.mp hw with h | h
        · subst h
          left
          exact List.mem_reverse.mp hc
        · rcases ih [] w h c hc with h' | h'
          · exact absurd h' (List.not_mem_nil c)
          · right; exact List.mem_cons_of_mem x h'

/-- Characters of the words of a text come from the text. -/
theorem mem_findWords_chars {w t : String} (h : w ∈ findWords t) :
    ∀ c ∈ w.toList, c ∈ t.toList := by
  intro c hc
  rcases mem_splitWordsAux_chars t.toList [] w h c hc with h' | h'
  · exact absurd h' (List.not_mem_nil c)
  · exact h'

/-- Rebuilding a string from its character list is the identity. -/
theorem string_mk_toList (w : String) : String.mk w.toList = w := rfl

/-- Words of a lowered text are already lowercase. -/
theorem pyLower_eq_self_of_mem_findWords_pyLower {w t : String}
    (h : w ∈ findWords (pyLower t)) : pyLower w = w := by
  have hc : ∀ c ∈ w.toList, c.toLower = c := fun c hc =>
    toLower_eq_self_of_mem_pyLower (mem_findWords_chars h c hc)
  show String.mk (w.toList.map Char.toLower) = w
  rw [List.map_congr_left hc, List.map_id', string_mk_toList]

/-- Every entry of the stop-word list is already lowercase. -/
theorem stop_words_lower : ∀ s ∈ stop_words, pyLower s = s := by decide

/-- Membership characterisation of `extract_keywords`. -/
theorem mem_extract_keywords {cs : Bool} {text w : String} :
    w ∈ extract_keywords cs text ↔
      text ≠ "" ∧ w ∈ findWords (if cs then text else pyLower text) ∧
        2 < w.length ∧ pyLower w ∉ stop_words := by
  unfold extract_keywords
  by_cases ht : text = ""
  · simp [ht]
  · rw [if_neg ht]
    simp only [List.mem_toFinset, List.mem_filter, decide_eq_true_eq, ne_eq, ht,
      not_false_eq_true, true_and]

/-- C7: every keyword returned by the extractor has length strictly greater
than 2, is not a stop word, and is a word-boundary token of the (lowered,
when case-insensitive) text; with case sensitivity off all keywords are
lowercase; empty input yields the empty set. -/
theorem extract_keywords_tokens (cs : Bool) (text : String) :
    (∀ w ∈ extract_keywords cs text,
        2 < w.length ∧ w ∉ stop_words ∧
          w ∈ findWords (if cs then text else pyLower text)) ∧
      (cs = false → ∀ w ∈ extract_keywords cs text, pyLower w = w) ∧
      extract_keywords cs "" = ∅ := by
  refine ⟨?_, ?_, ?_⟩
  · intro w hw
    obtain ⟨-, hmem, hlen, hstop⟩ := mem_extract_keywords.mp hw
    exact ⟨hlen, fun hws => hstop ((stop_words_lower w hws).symm ▸ hws), hmem⟩
  · rintro rfl w hw
    obtain ⟨-, hmem, -, -⟩ := mem_extract_keywords.mp hw
    exact pyLower_eq_self_of_mem_findWords_pyLower (by simpa using hmem)
  · unfold extract_keywords
    simp

/-- Witness for C7 on the concrete text "The Dog barks": the surviving
keyword "dog" is long enough, not a stop word, a token of the lowered text,
and lowercase; the empty input gives the empty set. -/
theorem extract_keywords_tokens_witness :
    (2 < "dog".length ∧ "dog" ∉ stop_words ∧
        "dog" ∈ findWords (pyLower "The Dog barks")) ∧
      pyLower "dog" = "dog" ∧ extract_keywords false "" = ∅ :=
  ⟨(extract_keywords_tokens false "The Dog barks").1 "dog" (by decide),
   (extract_keywords_tokens false "The Dog barks").2.1 rfl "dog" (by decide),
   (extract_keywords_tokens false "").2.2⟩

/-- C10: a token whose lowercase form is a stop word is dropped in both
case modes, and in case-sensitive mode every surviving keyword is a verbatim
word of the original text (original case kept). -/
theorem stopword_filter_drops_lowercase (cs : Bool) (text w : String)
    (hw : pyLower w ∈ stop_words) :
    w ∉ extract_keywords cs text ∧
      ∀ v ∈ extract_keywords true text, v ∈ findWords text := by
  constructor
  · intro hmem
    obtain ⟨-, -, -, hstop⟩ := mem_extract_keywords.mp hmem
    exact hstop hw
  · intro v hv
    obtain ⟨-, hmem, -, -⟩ := mem_extract_keywords.mp hv
    simpa using hmem

/-- Witness for C10: with case sensitivity on, "The" (lowercase form "the",
a stop word) is dropped from "The WHO dog", and the surviving keyword "dog"
appears verbatim among the words of the text. -/
theorem stopword_filter_drops_lowercase_witness :
    pyLower "The" ∈ stop_words ∧
      "The" ∉ extract_keywords true "The WHO dog" ∧
      "dog" ∈ findWords "The WHO dog" :=
  ⟨by decide,
   (stopword_filter_drops_lowercase true "The WHO dog" "The" (by decide)).1,
   (stopword_filter_drops_lowercase true "The WHO dog" "The" (by decide)).2
     "dog" (by decide)⟩

/-- C6: the keyword score is 0 when the query keyword set is empty or
disjoint from the record's keyword set; otherwise it is
`min(0.6 * coverage + 0.4 * mean-capped-frequency, 1)`, with per-keyword
occurrences counted by word-boundary matching (on the case-normalised text)
and capped at 3. -/
theorem compute_keyword_score_formula (cs : Bool) (query_keywords : Finset String)
    (message_text : String) :
    compute_keyword_score cs query_keywords message_text =
      if query_keywords = ∅ ∨ query_keywords ∩ extract_keywords cs message_text = ∅ then 0
      else
        min (0.6 * (((query_keywords ∩ extract_keywords cs message_text).card : ℚ)
              / (query_keywords.card : ℚ))
            + 0.4 * ((∑ k ∈ query_keywords ∩ extract_keywords cs message_text,
                ((min (count_occurrences (if cs then k else pyLower k)
                      (if cs then message_text else pyLower message_text)) 3 : ℕ) : ℚ) / 3)
              / ((query_keywords ∩ extract_keywords cs message_text).card : ℚ))) 1 := by
  unfold compute_keyword_score
  by_cases hq : query_keywords = ∅
  · simp [hq]
  · rw [if_neg hq]
    by_cases hm : extract_keywords cs message_text = ∅
    · rw [if_pos hm, if_pos (Or.inr (by rw [hm]; exact Finset.inter_empty query_keywords))]
    · rw [if_neg hm]
      by_cases hmt : query_keywords ∩ extract_keywords cs message_text = ∅
      · rw [if_pos hmt, if_pos (Or.inr hmt)]
      · rw [if_neg hmt,
          if_neg (show ¬(query_keywords = ∅ ∨
              query_keywords ∩ extract_keywords cs message_text = ∅) from
            not_or.mpr ⟨hq, hmt⟩)]
        dsimp only
        congr 1
        rw [← Finset.sum_div]
        ring

/-- An element of a `zipWith` comes from applying the function to members of
the two lists. -/
theorem mem_zipWith {α β γ : Type} {f : α → β → γ} :
    ∀ {l₁ : List α} {l₂ : List β} {y : γ}, y ∈ List.zipWith f l₁ l₂ →
      ∃ a ∈ l₁, ∃ b ∈ l₂, y = f a b := by
  intro l₁
  induction l₁ with
  | nil => intro l₂ y h; simp at h
  | cons a l ih =>
    intro l₂ y h
    cases l₂ with
    | nil => simp at h
    | cons b l₂ =>
      rcases List.mem_cons.mp h with h | h
      · exact ⟨a, List.mem_cons_self a l, b, List.mem_cons_self b l₂, h⟩
      · obtain ⟨a', ha, b', hb, rfl⟩ := ih h
        exact ⟨a', List.mem_cons_of_mem a ha, b', List.mem_cons_of_mem b hb, rfl⟩

/-- The keyword score always lies in `[0, 1]`. -/
theorem compute_keyword_score_mem_unit (cs : Bool) (query_keywords : Finset String)
    (message_text : String) :
    0 ≤ compute_keyword_score cs query_keywords message_text ∧
      compute_keyword_score cs query_keywords message_text ≤ 1 := by
  unfold compute_keyword_score
  dsimp only
  split_ifs
  all_goals
    first
    | exact ⟨le_refl 0, zero_le_one⟩
    | exact ⟨le_min (by positivity) zero_le_one, min_le_right _ _⟩

/-- C3: with the default fusion weights 0.7 / 0.3 and embedding similarities
in `[-1, 1]`, every hybrid score — fused, demoted by the keyword filter, or
produced by the pure-embedding fallback — lies in `[0, 1]`. -/
theorem hybrid_scores_mem_unit_interval (cfg : HybridConfig) (query : String)
    (message_texts : List String) (embedding_scores : List ℚ)
    (hwe : cfg.embedding_weight = 0.7) (hwk : cfg.keyword_weight = 0.3)
    (hemb : ∀ e ∈ embedding_scores, -1 ≤ e ∧ e ≤ 1) :
    ∀ y ∈ compute_hybrid_scores cfg query message_texts embedding_scores,
      0 ≤ y ∧ y ≤ 1 := by
  intro y hy
  have hnorm : ∀ n ∈ embedding_scores.map (fun s => (s + 1) / 2), 0 ≤ n ∧ n ≤ 1 := by
    intro n hn
    obtain ⟨e, he, rfl⟩ := List.mem_map.mp hn
    obtain ⟨h1, h2⟩ := hemb e he
    constructor <;> linarith
  have hks : ∀ k ∈ message_texts.map
      (compute_keyword_score cfg.case_sensitive
        (extract_keywords cfg.case_sensitive query)), 0 ≤ k ∧ k ≤ 1 := by
    intro k hk
    obtain ⟨t, ht, rfl⟩ := List.mem_map.mp hk
    exact compute_keyword_score_mem_unit _ _ _
  have hfused : ∀ h ∈ List.zipWith
      (fun e k => cfg.embedding_weight * e + cfg.keyword_weight * k)
      (embedding_scores.map (fun s => (s + 1) / 2))
      (message_texts.map (compute_keyword_score cfg.case_sensitive
        (extract_keywords cfg.case_sensitive query))), 0 ≤ h ∧ h ≤ 1 := by
    intro h hh
    obtain ⟨e, he, k, hk, rfl⟩ := mem_zipWith hh
    obtain ⟨he1, he2⟩ := hnorm e he
    obtain ⟨hk1, hk2⟩ := hks k hk
    rw [hwe, hwk]
    constructor <;> nlinarith
  unfold compute_hybrid_scores at hy
  dsimp only at hy
  split_ifs at hy
  · obtain ⟨k, hk, h, hh, rfl⟩ := mem_zipWith hy
    obtain ⟨h1, h2⟩ := hfused h hh
    split_ifs
    · exact ⟨h1, h2⟩
    · constructor <;> nlinarith
  · exact hnorm y hy
  · exact hfused y hy

/-- Witness for C3: a concrete call with the default settings, one record and
similarity 0 keeps every hybrid score in the unit interval. -/
theorem hybrid_scores_mem_unit_interval_witness :
    default_settings.embedding_weight = 0.7 ∧ default_settings.keyword_weight = 0.3 ∧
      (∀ e ∈ ([0] : List ℚ), -1 ≤ e ∧ e ≤ 1) ∧
      ∀ y ∈ compute_hybrid_scores default_settings "dog" ["dog house"] [0],
        0 ≤ y ∧ y ≤ 1 :=
  ⟨rfl, rfl, by decide,
   hybrid_scores_mem_unit_interval default_settings "dog" ["dog house"] [0]
     rfl rfl (by decide)⟩

/-- The argsort is a permutation of the index range. -/
theorem argsort_perm (scores : List ℚ) :
    List.Perm (argsort scores) (List.range scores.length) :=
  List.perm_insertionSort _ _

/-- The argsort has one entry per score. -/
theorem length_argsort (scores : List ℚ) :
    (argsort scores).length = scores.length := by
  rw [(argsort_perm scores).length_eq, List.length_range]

/-- Argsort entries are in-range indices. -/
theorem mem_argsort_lt {scores : List ℚ} {i : ℕ} (h : i ∈ argsort scores) :
    i < scores.length := by
  rw [(argsort_perm scores).mem_iff, List.mem_range] at h
  exact h

/-- The argsort is sorted for the score-then-index comparison. -/
theorem argsort_sorted (scores : List ℚ) :
    (argsort scores).Sorted (argsortRel scores) :=
  List.sorted_insertionSort _ _

/-- The argsort mentions no index twice. -/
theorem argsort_nodup (scores : List ℚ) : (argsort scores).Nodup :=
  (argsort_perm scores).nodup_iff.mpr (List.nodup_range _)

/-- The top-index list has `min k N` entries. -/
theorem top_indices_length (k : ℕ) (scores : List ℚ) :
    (top_indices k scores).length = min k scores.length := by
  unfold top_indices
  rw [List.length_take, List.length_reverse, length_argsort]

/-- Top indices are in-range. -/
theorem mem_top_indices_lt {k : ℕ} {scores : List ℚ} {i : ℕ}
    (h : i ∈ top_indices k scores) : i < scores.length :=
  mem_argsort_lt (List.mem_reverse.mp (List.mem_of_mem_take h))

/-- Along the top-index list the comparison holds in reversed orientation:
later entries sort below earlier ones. -/
theorem top_indices_pairwise (k : ℕ) (scores : List ℚ) :
    (top_indices k scores).Pairwise (fun i j => argsortRel scores j i) :=
  (List.pairwise_reverse.mpr (argsort_sorted scores)).sublist
    (List.take_sublist k _)

/-- The top-index list mentions no index twice. -/
theorem top_indices_nodup (k : ℕ) (scores : List ℚ) :
    (top_indices k scores).Nodup :=
  ((List.nodup_reverse.mpr (argsort_nodup scores)).sublist
    (List.take_sublist k _))

/-- When every index of `l` is in range, the lookup-`filterMap` of the
retriever drops nothing. -/
theorem filterMap_lookup_length {α : Type} (messages : List α) (hybrid : List ℚ) :
    ∀ (l : List ℕ), (∀ i ∈ l, i < messages.length) →
      (l.filterMap (fun idx => (messages[idx]?).map
        (fun m => (m, hybrid.getD idx 0)))).length = l.length := by
  intro l
  induction l with
  | nil => intro h; rfl
  | cons i l ih =>
    intro h
    have hi : i < messages.length := h i (List.mem_cons_self i l)
    rw [List.filterMap_cons, List.getElem?_eq_getElem hi]
    simp only [Option.map_some', List.length_cons]
    rw [ih (fun j hj => h j (List.mem_cons_of_mem i hj))]

/-- When every index of `l` is in range, the scores returned by the
retriever's `filterMap` are exactly the scores at those indices. -/
theorem filterMap_lookup_map_snd {α : Type} (messages : List α) (hybrid : List ℚ) :
    ∀ (l : List ℕ), (∀ i ∈ l, i < messages.length) →
      (l.filterMap (fun idx => (messages[idx]?).map
        (fun m => (m, hybrid.getD idx 0)))).map Prod.snd
        = l.map (fun i => hybrid.getD i 0) := by
  intro l
  induction l with
  | nil => intro h; rfl
  | cons i l ih =>
    intro h
    have hi : i < messages.length := h i (List.mem_cons_self i l)
    rw [List.filterMap_cons, List.getElem?_eq_getElem hi]
    simp only [Option.map_some', List.map_cons]
    rw [ih (fun j hj => h j (List.mem_cons_of_mem i hj))]

/-- The hybrid-score vector has one entry per record when texts and
similarities are aligned. -/
theorem length_compute_hybrid_scores (cfg : HybridConfig) (query : String)
    (message_texts : List String) (embedding_scores : List ℚ)
    (ht : message_texts.length = embedding_scores.length) :
    (compute_hybrid_scores cfg query message_texts embedding_scores).length
      = embedding_scores.length := by
  unfold compute_hybrid_scores
  dsimp only
  split_ifs <;>
    simp [List.length_zipWith, List.length_map, ht, Nat.min_self]

/-- The retriever returns exactly `min(top_k, N)` scored records. -/
theorem retrieve_length_eq {α : Type} (cfg : HybridConfig) (question : String)
    (messages : List α) (message_texts : List String) (embedding_scores : List ℚ)
    (hm : messages.length = embedding_scores.length)
    (ht : message_texts.length = embedding_scores.length) :
    (retrieve_relevant_messages cfg question messages message_texts embedding_scores).length
      = min cfg.top_k embedding_scores.length := by
  unfold retrieve_relevant_messages
  dsimp only
  have hlen : (compute_hybrid_scores cfg question message_texts embedding_scores).length
      = embedding_scores.length :=
    length_compute_hybrid_scores cfg question message_texts embedding_scores ht
  rw [filterMap_lookup_length]
  · rw [top_indices_length, hlen]
  · intro i hi
    have := mem_top_indices_lt hi
    omega

/-- C8: for every query and aligned record/text/similarity sequences of
length N, the retriever returns exactly `min(K, N)` scored records — in
particular exactly N records, with no padding and no error, when K exceeds
the corpus size. -/
theorem retrieve_returns_min_top_k {α : Type} (cfg : HybridConfig)
    (question : String) (messages : List α) (message_texts : List String)
    (embedding_scores : List ℚ)
    (hm : messages.length = embedding_scores.length)
    (ht : message_texts.length = embedding_scores.length) :
    (retrieve_relevant_messages cfg question messages message_texts
        embedding_scores).length = min cfg.top_k embedding_scores.length :=
  retrieve_length_eq cfg question messages message_texts embedding_scores hm ht

/-- Witness for C8: a corpus of one record with the default `top_k = 5`
returns exactly `min 5 1 = 1` record. -/
theorem retrieve_returns_min_top_k_witness :
    ([0] : List ℕ).length = ([0] : List ℚ).length ∧
      (retrieve_relevant_messages default_settings "paris" ([0] : List ℕ)
          ["x"] [0]).length = min default_settings.top_k 1 :=
  ⟨rfl, retrieve_returns_min_top_k default_settings "paris" [0] ["x"] [0] rfl rfl⟩

/-- C4: with a positive minimum-match setting and a nonempty query keyword
set, if no record's keyword score reaches `min_keyword_matches / |Q|` the
hybrid scores fall back to the pure normalised embedding similarities (and
the retriever still returns `min(K, N)` records); otherwise records failing
the threshold have their fused score multiplied by 0.1 and passing records
keep it. -/
theorem hybrid_min_match_fallback_and_demotion {α : Type} (cfg : HybridConfig)
    (query : String) (messages : List α) (message_texts : List String)
    (embedding_scores : List ℚ)
    (hmin : 0 < cfg.min_keyword_matches)
    (hq : extract_keywords cfg.case_sensitive query ≠ ∅) :
    ((∀ k ∈ message_texts.map (compute_keyword_score cfg.case_sensitive
          (extract_keywords cfg.case_sensitive query)),
        k < (cfg.min_keyword_matches : ℚ)
            / ((extract_keywords cfg.case_sensitive query).card : ℚ)) →
      compute_hybrid_scores cfg query message_texts embedding_scores
          = embedding_scores.map (fun s => (s + 1) / 2)
        ∧ (messages.length = embedding_scores.length →
            message_texts.length = embedding_scores.length →
            (retrieve_relevant_messages cfg query messages message_texts
                embedding_scores).length = min cfg.top_k embedding_scores.length))
    ∧ ((∃ k ∈ message_texts.map (compute_keyword_score cfg.case_sensitive
          (extract_keywords cfg.case_sensitive query)),
        (cfg.min_keyword_matches : ℚ)
            / ((extract_keywords cfg.case_sensitive query).card : ℚ) ≤ k) →
      compute_hybrid_scores cfg query message_texts embedding_scores
        = List.zipWith (fun k h =>
            if (cfg.min_keyword_matches : ℚ)
                / ((extract_keywords cfg.case_sensitive query).card : ℚ) ≤ k
            then h else h * 0.1)
            (message_texts.map (compute_keyword_score cfg.case_sensitive
              (extract_keywords cfg.case_sensitive query)))
            (List.zipWith (fun e k =>
                cfg.embedding_weight * e + cfg.keyword_weight * k)
              (embedding_scores.map (fun s => (s + 1) / 2))
              (message_texts.map (compute_keyword_score cfg.case_sensitive
                (extract_keywords cfg.case_sensitive query))))) := by
  constructor
  · intro hall
    constructor
    · unfold compute_hybrid_scores
      dsimp only
      rw [if_pos ⟨hmin, hq⟩,
        if_neg (fun hex => by
          obtain ⟨k, hk, hthr⟩ := hex
          exact absurd hthr (not_le.mpr (hall k hk)))]
    · intro hm ht
      exact retrieve_length_eq cfg query messages message_texts embedding_scores hm ht
  · intro hex
    unfold compute_hybrid_scores
    dsimp only
    rw [if_pos ⟨hmin, hq⟩, if_pos hex]

/-- Witness for C4: for the query "dog" against the single record "cat pet"
(no keyword match anywhere), the hybrid scores are exactly the normalised
embedding similarities. -/
theorem hybrid_min_match_fallback_witness :
    0 < default_settings.min_keyword_matches ∧
      extract_keywords default_settings.case_sensitive "dog" ≠ ∅ ∧
      compute_hybrid_scores default_settings "dog" ["cat pet"] [0]
        = ([0] : List ℚ).map (fun s => (s + 1) / 2) :=
  ⟨by decide, by decide,
   ((hybrid_min_match_fallback_and_demotion default_settings "dog"
      ([0] : List ℕ) ["cat pet"] [0] (by decide) (by decide)).1
     (by
       intro k hk
       simp only [default_settings] at hk ⊢
       simp only [List.map_cons, List.map_nil, List.mem_singleton] at hk
       subst hk
       rw [show compute_keyword_score false (extract_keywords false "dog") "cat pet" = 0
            by decide,
          show extract_keywords false "dog" = {"dog"} by decide]
       norm_num)).1⟩

/-- C1 (amended): the retriever's scores are the hybrid scores at the
top-index list, that list is sorted descending by score, and equal-scored
records appear in reverse original corpus order (ascending argsort followed
by reversal), so the output is still deterministic. -/
theorem retrieve_sorted_desc_ties_reversed {α : Type} (cfg : HybridConfig)
    (question : String) (messages : List α) (message_texts : List String)
    (embedding_scores : List ℚ)
    (hm : messages.length = embedding_scores.length)
    (ht : message_texts.length = embedding_scores.length) :
    ((retrieve_relevant_messages cfg question messages message_texts
        embedding_scores).map Prod.snd
      = (top_indices cfg.top_k
          (compute_hybrid_scores cfg question message_texts embedding_scores)).map
          (fun i => (compute_hybrid_scores cfg question message_texts
            embedding_scores).getD i 0))
    ∧ (top_indices cfg.top_k
        (compute_hybrid_scores cfg question message_texts embedding_scores)).Pairwise
        (fun i j => (compute_hybrid_scores cfg question message_texts
            embedding_scores).getD j 0
          ≤ (compute_hybrid_scores cfg question message_texts embedding_scores).getD i 0)
    ∧ (top_indices cfg.top_k
        (compute_hybrid_scores cfg question message_texts embedding_scores)).Pairwise
        (fun i j => (compute_hybrid_scores cfg question message_texts
            embedding_scores).getD i 0
            = (compute_hybrid_scores cfg question message_texts
              embedding_scores).getD j 0 → j < i) := by
  have hlen : (compute_hybrid_scores cfg question message_texts embedding_scores).length
      = embedding_scores.length :=
    length_compute_hybrid_scores cfg question message_texts embedding_scores ht
  refine ⟨?_, ?_, ?_⟩
  · unfold retrieve_relevant_messages
    dsimp only
    apply filterMap_lookup_map_snd
    intro i hi
    have h1 := mem_top_indices_lt hi
    omega
  · apply (top_indices_pairwise _ _).imp
    intro i j hrel
    rcases hrel with h | ⟨he, -⟩
    · exact le_of_lt h
    · exact le_of_eq he
  · apply ((top_indices_pairwise cfg.top_k
      (compute_hybrid_scores cfg question message_texts embedding_scores)).and
        (top_indices_nodup _ _)).imp
    intro i j hrel heq
    rcases hrel.1 with h | ⟨-, hle⟩
    · rw [heq] at h
      exact absurd h (lt_irrefl _)
    · exact lt_of_le_of_ne hle (Ne.symm hrel.2)

/-- Witness for C1 (amended): the concrete two-record tie below satisfies the
reverse-order tie property. -/
theorem retrieve_sorted_desc_ties_reversed_witness :
    (top_indices default_settings.top_k
        (compute_hybrid_scores default_settings "xyzq" ["aaa", "bbb"] [0, 0])).Pairwise
      (fun i j =>
        (compute_hybrid_scores default_settings "xyzq" ["aaa", "bbb"] [0, 0]).getD i 0
            = (compute_hybrid_scores default_settings "xyzq" ["aaa", "bbb"] [0, 0]).getD j 0
          → j < i) :=
  (retrieve_sorted_desc_ties_reversed default_settings "xyzq" ([0, 1] : List ℕ)
    ["aaa", "bbb"] [0, 0] rfl rfl).2.2

/-- When the minimum-match filter is active and no keyword score reaches the
threshold, the hybrid scores are exactly the normalised embedding
similarities (the pure-embedding fallback branch). -/
theorem compute_hybrid_scores_fallback (cfg : HybridConfig) (query : String)
    (message_texts : List String) (embedding_scores : List ℚ)
    (hmin : 0 < cfg.min_keyword_matches)
    (hq : extract_keywords cfg.case_sensitive query ≠ ∅)
    (hall : ∀ k ∈ message_texts.map (compute_keyword_score cfg.case_sensitive
        (extract_keywords cfg.case_sensitive query)),
      k < (cfg.min_keyword_matches : ℚ)
          / ((extract_keywords cfg.case_sensitive query).card : ℚ)) :
    compute_hybrid_scores cfg query message_texts embedding_scores
      = embedding_scores.map (fun s => (s + 1) / 2) := by
  unfold compute_hybrid_scores
  dsimp only
  rw [if_pos ⟨hmin, hq⟩,
    if_neg (fun hex => by
      obtain ⟨k, hk, hthr⟩ := hex
      exact absurd hthr (not_le.mpr (hall k hk)))]

/-- Counterexample to C1 as stated: for the query "xyzq" (no keyword matches)
over two records with equal similarity 0, both hybrid scores are equal
(both 1/2), yet the retriever returns record 1 before record 0 — ties do not
retain the original corpus order. -/
theorem retrieve_ties_reversed_counterexample :
    (compute_hybrid_scores default_settings "xyzq" ["aaa", "bbb"] [0, 0]).getD 0 0
      = (compute_hybrid_scores default_settings "xyzq" ["aaa", "bbb"] [0, 0]).getD 1 0
    ∧ (retrieve_relevant_messages default_settings "xyzq" ([0, 1] : List ℕ)
        ["aaa", "bbb"] [0, 0]).map Prod.fst = [1, 0] := by
  have hall : ∀ k ∈ ["aaa", "bbb"].map (compute_keyword_score default_settings.case_sensitive
      (extract_keywords default_settings.case_sensitive "xyzq")),
      k < (default_settings.min_keyword_matches : ℚ)
          / ((extract_keywords default_settings.case_sensitive "xyzq").card : ℚ) := by
    have h1 : compute_keyword_score default_settings.case_sensitive
        (extract_keywords default_settings.case_sensitive "xyzq") "aaa" = 0 := by decide
    have h2 : compute_keyword_score default_settings.case_sensitive
        (extract_keywords default_settings.case_sensitive "xyzq") "bbb" = 0 := by decide
    intro k hk
    simp only [List.map_cons, List.map_nil] at hk
    rw [h1, h2] at hk
    simp only [List.mem_cons, List.mem_singleton, List.not_mem_nil, or_false, or_self] at hk
    subst hk
    rw [show extract_keywords default_settings.case_sensitive "xyzq" = {"xyzq"} from by decide]
    norm_num [default_settings, Finset.card_singleton]
  have hch : compute_hybrid_scores default_settings "xyzq" ["aaa", "bbb"] [0, 0]
      = [1/2, 1/2] := by
    rw [compute_hybrid_scores_fallback default_settings "xyzq" ["aaa", "bbb"] [0, 0]
      (by decide) (by decide) hall]
    norm_num
  have hrel : argsortRel [(1:ℚ)/2, 1/2] 0 1 := Or.inr ⟨rfl, Nat.zero_le 1⟩
  have hsort : argsort [(1:ℚ)/2, 1/2] = [0, 1] := by
    unfold argsort
    have hr : List.range ([(1:ℚ)/2, 1/2].length) = [0, 1] := rfl
    rw [hr]
    simp only [List.insertionSort, List.orderedInsert]
    rw [if_pos hrel]
  have htop : top_indices default_settings.top_k [(1:ℚ)/2, 1/2] = [1, 0] := by
    unfold top_indices
    rw [hsort]
    rfl
  constructor
  · rw [hch]
    rfl
  · unfold retrieve_relevant_messages
    dsimp only
    rw [hch, htop]
    rfl

/-- On a valid cache, `_get_or_compute_embeddings` returns the stored matrix
and leaves the state untouched. -/
theorem goc_valid_eq {hash : String → String} {encode : List String → List (List ℚ)}
    {now : ℚ} {write : List (List ℚ) → List String → Except String Unit}
    {s : CacheState} {texts : List String}
    (h : cache_valid s (texts.map hash)) :
    get_or_compute_embeddings hash encode now write s texts
      = ⟨s.cached_embeddings.getD [], s, false, none⟩ := by
  unfold get_or_compute_embeddings
  dsimp only
  rw [if_pos h]

/-- On an invalid cache, `_get_or_compute_embeddings` recomputes everything,
installs the new entry and attempts the disk write. -/
theorem goc_invalid_eq {hash : String → String} {encode : List String → List (List ℚ)}
    {now : ℚ} {write : List (List ℚ) → List String → Except String Unit}
    {s : CacheState} {texts : List String}
    (h : ¬ cache_valid s (texts.map hash)) :
    get_or_compute_embeddings hash encode now write s texts
      = ⟨encode texts,
          ⟨some (encode texts), some (texts.map hash), some now⟩, true,
          save_embedding_cache write (encode texts) (texts.map hash)⟩ := by
  unfold get_or_compute_embeddings
  dsimp only
  rw [if_neg h]

/-- C5: after a call on `texts`, a second call with the identical sequence
returns the stored matrix without invoking the provider again; and a second
call whose sequence differs at all (length, any element, or reordering)
invalidates the cache and recomputes all embeddings in full.  Injectivity of
`hash` models collision freedom of the md5 fingerprint. -/
theorem cache_hit_and_full_invalidation
    (hash : String → String) (encode : List String → List (List ℚ))
    (now1 now2 : ℚ)
    (write1 write2 : List (List ℚ) → List String → Except String Unit)
    (s0 : CacheState) (texts texts2 : List String)
    (hinj : Function.Injective hash) :
    ((get_or_compute_embeddings hash encode now2 write2
        (get_or_compute_embeddings hash encode now1 write1 s0 texts).state
        texts).embeddings
      = (get_or_compute_embeddings hash encode now1 write1 s0 texts).embeddings
    ∧ (get_or_compute_embeddings hash encode now2 write2
        (get_or_compute_embeddings hash encode now1 write1 s0 texts).state
        texts).provider_called = false)
    ∧ (texts2 ≠ texts →
      (get_or_compute_embeddings hash encode now2 write2
          (get_or_compute_embeddings hash encode now1 write1 s0 texts).state
          texts2).provider_called = true
      ∧ (get_or_compute_embeddings hash encode now2 write2
          (get_or_compute_embeddings hash encode now1 write1 s0 texts).state
          texts2).embeddings = encode texts2) := by
  have hneq : texts2 ≠ texts → texts2.map hash ≠ texts.map hash :=
    fun hne h => hne (List.map_injective_iff.mpr hinj h)
  by_cases h : cache_valid s0 (texts.map hash)
  · rw [goc_valid_eq h]
    dsimp only
    rw [goc_valid_eq h]
    refine ⟨⟨rfl, rfl⟩, ?_⟩
    intro hne
    have hnv : ¬ cache_valid s0 (texts2.map hash) := by
      intro hv
      exact hneq hne (h.2.symm.trans hv.2 |> Option.some_inj.mp).symm
    rw [goc_invalid_eq hnv]
    exact ⟨rfl, rfl⟩
  · rw [goc_invalid_eq h]
    dsimp only
    have hv2 : cache_valid (⟨some (encode texts), some (texts.map hash), some now1⟩ : CacheState)
        (texts.map hash) := ⟨rfl, rfl⟩
    rw [goc_valid_eq hv2]
    refine ⟨⟨rfl, rfl⟩, ?_⟩
    intro hne
    have hnv : ¬ cache_valid
        (⟨some (encode texts), some (texts.map hash), some now1⟩ : CacheState)
        (texts2.map hash) := by
      intro hv
      exact hneq hne (Option.some_inj.mp hv.2.symm)
    rw [goc_invalid_eq hnv]
    exact ⟨rfl, rfl⟩

/-- Witness for C5: starting from the empty cache, a first call on `["a"]`
followed by a repeat call hits the cache, while a call on `["b"]` recomputes. -/
theorem cache_hit_and_full_invalidation_witness :
    ((get_or_compute_embeddings id (fun ts => ts.map (fun _ => [0])) 1
        (fun _ _ => Except.ok ())
        (get_or_compute_embeddings id (fun ts => ts.map (fun _ => [0])) 0
          (fun _ _ => Except.ok ()) ⟨none, none, none⟩ ["a"]).state
        ["a"]).provider_called = false)
    ∧ ((get_or_compute_embeddings id (fun ts => ts.map (fun _ => [0])) 1
        (fun _ _ => Except.ok ())
        (get_or_compute_embeddings id (fun ts => ts.map (fun _ => [0])) 0
          (fun _ _ => Except.ok ()) ⟨none, none, none⟩ ["a"]).state
        ["b"]).provider_called = true) :=
  ⟨(cache_hit_and_full_invalidation id (fun ts => ts.map (fun _ => [0])) 0 1
      (fun _ _ => Except.ok ()) (fun _ _ => Except.ok ())
      ⟨none, none, none⟩ ["a"] ["b"] Function.injective_id).1.2,
   ((cache_hit_and_full_invalidation id (fun ts => ts.map (fun _ => [0])) 0 1
      (fun _ _ => Except.ok ()) (fun _ _ => Except.ok ())
      ⟨none, none, none⟩ ["a"] ["b"] Function.injective_id).2 (by decide)).1⟩

/-- Counterexample to C2 as stated: an in-memory cache entry created at time
0 and queried at time 90000 s (25 h, past the default 24 h TTL) with a
matching fingerprint sequence is still returned by
`_get_or_compute_embeddings`, and the provider is not invoked — the expired
entry is not treated as absent. -/
theorem get_or_compute_ignores_ttl_counterexample :
    cache_ttl_default ≤ (90000 : ℚ) - 0
    ∧ (get_or_compute_embeddings (fun t => t) (fun _ => [[2]]) 90000
        (fun _ _ => Except.ok ())
        ⟨some [[1]], some ["x"], some 0⟩ ["x"]).embeddings = [[1]]
    ∧ (get_or_compute_embeddings (fun t => t) (fun _ => [[2]]) 90000
        (fun _ _ => Except.ok ())
        ⟨some [[1]], some ["x"], some 0⟩ ["x"]).provider_called = false := by
  have hv : cache_valid (⟨some [[1]], some ["x"], some 0⟩ : CacheState)
      (["x"].map (fun t : String => t)) := ⟨rfl, rfl⟩
  refine ⟨by norm_num [cache_ttl_default], ?_, ?_⟩
  · rw [goc_valid_eq hv]
    rfl
  · rw [goc_valid_eq hv]

/-- C2 (amended): the TTL is enforced only when the cache is loaded from
disk at startup — an on-disk entry at least TTL old is not installed and is
treated as absent — while `_get_or_compute_embeddings` performs no TTL check
at all: any in-memory entry with a matching fingerprint sequence is returned
without re-deriving embeddings, regardless of its age. -/
theorem ttl_enforced_only_at_load (ttl now ts : ℚ)
    (emb : List (List ℚ)) (hs : List String)
    (hash : String → String) (encode : List String → List (List ℚ))
    (write : List (List ℚ) → List String → Except String Unit)
    (s : CacheState) (texts : List String)
    (hexp : ttl ≤ now - ts)
    (hvalid : cache_valid s (texts.map hash)) :
    load_embedding_cache ttl now (.entry ts emb hs) = ⟨none, none, none⟩
    ∧ (get_or_compute_embeddings hash encode now write s texts).provider_called = false
    ∧ (get_or_compute_embeddings hash encode now write s texts).embeddings
        = s.cached_embeddings.getD [] := by
  refine ⟨?_, ?_, ?_⟩
  · simp only [load_embedding_cache, load_embedding_cache_body]
    rw [if_neg (not_lt.mpr hexp)]
  · rw [goc_valid_eq hvalid]
  · rw [goc_valid_eq hvalid]

/-- Witness for C2 (amended): at 25 h of age the on-disk entry is dropped at
load, and the matching in-memory entry is still served by the compute path. -/
theorem ttl_enforced_only_at_load_witness :
    cache_ttl_default ≤ (90000 : ℚ) - 0
    ∧ load_embedding_cache cache_ttl_default 90000 (.entry 0 [[1]] ["x"])
        = ⟨none, none, none⟩
    ∧ (get_or_compute_embeddings (fun t => t) (fun _ => [[2]]) 90000
        (fun _ _ => Except.ok ())
        ⟨some [[1]], some ["x"], some 0⟩ ["x"]).provider_called = false :=
  ⟨by norm_num [cache_ttl_default],
   (ttl_enforced_only_at_load cache_ttl_default 90000 0 [[1]] ["x"]
      (fun t => t) (fun _ => [[2]]) (fun _ _ => Except.ok ())
      ⟨some [[1]], some ["x"], some 0⟩ ["x"]
      (by norm_num [cache_ttl_default]) ⟨rfl, rfl⟩).1,
   (ttl_enforced_only_at_load cache_ttl_default 90000 0 [[1]] ["x"]
      (fun t => t) (fun _ => [[2]]) (fun _ _ => Except.ok ())
      ⟨some [[1]], some ["x"], some 0⟩ ["x"]
      (by norm_num [cache_ttl_default]) ⟨rfl, rfl⟩).2.1⟩

/-- C9: cache persistence failures never escape the cache boundary — a
failed or corrupt disk read loads as an all-`None` state (a cache miss, so
the next call recomputes), the result and new state of a compute call do not
depend on the outcome of the disk write, and a failing write is only turned
into a logged message. -/
theorem cache_io_failures_swallowed (ttl now : ℚ)
    (hash : String → String) (encode : List String → List (List ℚ))
    (write1 write2 : List (List ℚ) → List String → Except String Unit)
    (s : CacheState) (texts : List String) :
    load_embedding_cache ttl now .failure = ⟨none, none, none⟩
    ∧ (get_or_compute_embeddings hash encode now write1
        (load_embedding_cache ttl now .failure) texts).provider_called = true
    ∧ (get_or_compute_embeddings hash encode now write1 s texts).embeddings
        = (get_or_compute_embeddings hash encode now write2 s texts).embeddings
    ∧ (get_or_compute_embeddings hash encode now write1 s texts).state
        = (get_or_compute_embeddings hash encode now write2 s texts).state
    ∧ save_embedding_cache (fun _ _ => Except.error "disk full")
        (encode texts) (texts.map hash) = some "disk full" := by
  have hmiss : ¬ cache_valid (⟨none, none, none⟩ : CacheState) (texts.map hash) := by
    intro hv
    simpa using hv.1
  refine ⟨rfl, ?_, ?_, ?_, rfl⟩
  · show (get_or_compute_embeddings hash encode now write1
      (⟨none, none, none⟩ : CacheState) texts).provider_called = true
    rw [goc_invalid_eq hmiss]
  · by_cases h : cache_valid s (texts.map hash)
    · rw [goc_valid_eq h, goc_valid_eq h]
    · rw [goc_invalid_eq h, goc_invalid_eq h]
  · by_cases h : cache_valid s (texts.map hash)
    · rw [goc_valid_eq h, goc_valid_eq h]
    · rw [goc_invalid_eq h, goc_invalid_eq h]
